import Mathlib

/-!
Verification of the Solitaire (Pontifex) cipher implementation.

The Rust sources are shallowly embedded as follows:
* `Deck([u8; 54])` becomes a `List Nat`; the validity invariant is
  `validDeck d : d ~ List.range' 1 54`.
* `u8` arithmetic is modelled with `Nat`; all such arithmetic in the
  program is shown to stay far below 256 (claim C10), so no wrap-around
  modelling is needed.
* Rust iterator pipelines become functions on lists; `&str` becomes
  `List Char`.
* The (potentially) unbounded joker-skip loop in `Keystream::next` is
  modelled with explicit fuel (`next_key`); theorems about the cipher
  carry the hypothesis that the keystream produced enough values.
-/

namespace Solitaire

/-- Embedding of `deck.rs` constant `DECK_SIZE` (the full-deck build). -/
def DECK_SIZE : Nat := 54

/-- Numeric value of `JOKER_A` (`card.rs`: suit Joker = 4, 4 * 13 + 1 = 53). -/
def JOKER_A : Nat := 53

/-- Numeric value of `JOKER_B` (`card.rs`: 4 * 13 + 2 = 54). -/
def JOKER_B : Nat := 54

/-- Embedding of `deck.rs` `is_joker`. -/
def is_joker (v : Nat) : Bool := v == DECK_SIZE || v == DECK_SIZE - 1

/-- Embedding of `Deck::find`: index of the first occurrence of `card`
(the Rust code is `unreachable!` when the card is absent; theorems assume
presence, under which `List.indexOf` agrees with the loop in the source). -/
def find (d : List Nat) (card : Nat) : Nat := d.indexOf card

/-- Embedding of `Deck::push`: push the given card down by `n` places.
The Rust slice assignments
`next[dest] = self.0[idx]; next[dest+1..=idx] = self.0[dest..idx]` (wrap)
and
`next[idx..idx+n] = self.0[idx+1..idx+n+1]; next[idx+n] = self.0[idx]`
(no wrap) are rendered as list concatenations of the same segments. -/
def push (d : List Nat) (card : Nat) (n : Nat) : List Nat :=
  let n := n % DECK_SIZE
  let idx := find d card
  if DECK_SIZE ≤ idx + n then
    let dest := (idx + n) % (DECK_SIZE - 1)
    d.take dest ++ [d.getD idx 0] ++ (d.take idx).drop dest ++ d.drop (idx + 1)
  else
    d.take idx ++ (d.take (idx + n + 1)).drop (idx + 1) ++ [d.getD idx 0]
      ++ d.drop (idx + n + 1)

/-- Embedding of `Deck::triple_cut`: with `idx0 ≤ idx1` the positions of the
two cards, the Rust code builds `old[idx1+1..] ++ old[idx0..=idx1] ++ old[..idx0]`. -/
def triple_cut (d : List Nat) (card0 card1 : Nat) : List Nat :=
  let j0 := find d card0
  let j1 := find d card1
  let idx0 := min j0 j1
  let idx1 := max j0 j1
  d.drop (idx1 + 1) ++ (d.take (idx1 + 1)).drop idx0 ++ d.take idx0

/-- Embedding of `Deck::count_cut`: the Rust code builds
`old[idx..53] ++ old[..idx] ++ [old[53]]`; with a length-54 deck the final
singleton is `d.drop 53`. The `None` case reads the bottom card, mapping
the value 54 (Joker B) to 53. -/
def count_cut (d : List Nat) (override_idx : Option Nat) : List Nat :=
  let idx := match override_idx with
    | some oi => oi
    | none =>
      let v := d.getD (DECK_SIZE - 1) 0
      if v = DECK_SIZE then DECK_SIZE - 1 else v
  (d.take (DECK_SIZE - 1)).drop idx ++ d.take idx ++ d.drop (DECK_SIZE - 1)

/-- Embedding of `Deck::output`: read the top card, map Joker B's value to 53,
index with it, fail on a joker. -/
def output (d : List Nat) : Option Nat :=
  let idx :=
    let v := d.getD 0 0
    if v = DECK_SIZE then DECK_SIZE - 1 else v
  let card := d.getD idx 0
  if is_joker card then none else some card

/-- One pass of the loop body of `Keystream::next` in `lib.rs`:
push Joker A by 1, push Joker B by 2, triple-cut on the jokers, count-cut. -/
def step_once (d : List Nat) : List Nat :=
  count_cut (triple_cut (push (push d JOKER_A 1) JOKER_B 2) JOKER_A JOKER_B) none

/-- Embedding of `Keystream::next` with explicit fuel bounding the number of
joker-skip iterations of the `while output.is_none()` loop. -/
def next_key : Nat → List Nat → Option (Nat × List Nat)
  | 0, _ => none
  | fuel + 1, d =>
    let d' := step_once d
    match output d' with
    | some v => some (v, d')
    | none => next_key fuel d'

/-- Take the first `n` values of the keystream (each advancement is given
`fuel` loop iterations); models `keystream(deck).take(n)`. -/
def ks_take (fuel : Nat) : Nat → List Nat → List Nat
  | 0, _ => []
  | n + 1, d =>
    match next_key fuel d with
    | none => []
    | some (v, d') => v :: ks_take fuel n d'

/-- Validity invariant of a `Deck`: it is a permutation of `1..=54`. -/
def validDeck (d : List Nat) : Prop := d.Perm (List.range' 1 DECK_SIZE)


/-! Text pipeline (`textbyte.rs`) and the cipher itself (`lib.rs`). -/

/-- Embedding of `lib.rs` constant `GROUP_SIZE`. -/
def GROUP_SIZE : Nat := 5

/-- Embedding of `lib.rs` constant `PAD_CHAR` (`b'X' - b'A' + 1 = 24`). -/
def PAD_CHAR : Nat := 24

/-- Rust `char::is_ascii_alphabetic`. -/
def is_ascii_alphabetic (c : Char) : Bool :=
  (65 ≤ c.toNat && c.toNat ≤ 90) || (97 ≤ c.toNat && c.toNat ≤ 122)

/-- Rust `char::to_ascii_uppercase`. -/
def to_ascii_uppercase (c : Char) : Char :=
  if 97 ≤ c.toNat && c.toNat ≤ 122 then Char.ofNat (c.toNat - 32) else c

/-- Embedding of `textbyte.rs` `textbyte`: keep ASCII letters, encode
`A = 1 .. Z = 26`. -/
def textbyte (text : List Char) : List Nat :=
  (text.filter is_ascii_alphabetic).map
    (fun c => (to_ascii_uppercase c).toNat - 65 + 1)

/-- Embedding of `textbyte.rs` `Pad::pad`: the `zip_longest`/`take_while`
combinator emits the whole stream, then copies of `padding` while the
running index is not a multiple of `group_size`; observably, it appends
`group_size - len % group_size` pads exactly when `len % group_size ≠ 0`. -/
def pad (l : List Nat) (padding : Nat) (group_size : Nat) : List Nat :=
  if l.length % group_size = 0 then l
  else l ++ List.replicate (group_size - l.length % group_size) padding

/-- Embedding of `textbyte.rs` `Restore::restore`:
`b ↦ ((b - 1) % 26) + b'A'` as a `char`. -/
def restore (l : List Nat) : List Char :=
  l.map (fun b => Char.ofNat ((b - 1) % 26 + 65))

/-- Chunking helper for `separate`, with the list length as structural fuel
(`itertools::chunks`). -/
def chunksAux (g : Nat) : Nat → List Char → List (List Char)
  | 0, _ => []
  | _ + 1, [] => []
  | fuel + 1, a :: t => (a :: t).take g :: chunksAux g fuel ((a :: t).drop g)

/-- Split a list into chunks of `g` (the last one possibly shorter). -/
def chunks (g : Nat) (l : List Char) : List (List Char) := chunksAux g l.length l

/-- Join chunks with a single separator between consecutive chunks. -/
def sepJoin (sep : Char) : List (List Char) → List Char
  | [] => []
  | [c] => c
  | c :: c2 :: cs => c ++ sep :: sepJoin sep (c2 :: cs)

/-- Embedding of `textbyte.rs` `Separate::separate`: the
`chunks / interleave_shortest / with_position` pipeline observably groups
the stream in `group_size`-chunks joined by single separators (the
`Last(c) if c != group_sep` filter removes exactly the trailing separator,
which is the last emitted element whenever the input is nonempty). -/
def separate (l : List Char) (group_sep : Char) (group_size : Nat) : List Char :=
  sepJoin group_sep (chunks group_size l)

/-- Embedding of `lib.rs` `crypt`. -/
def crypt (fuel : Nat) (deck : List Nat) (text : List Char)
    (operation : Nat → Nat → Nat) : List Char :=
  let padded := pad (textbyte text) PAD_CHAR GROUP_SIZE
  separate (restore (List.zipWith operation padded
    (ks_take fuel padded.length deck))) ' ' GROUP_SIZE

/-- Embedding of `lib.rs` `encrypt`. -/
def encrypt (fuel : Nat) (deck : List Nat) (text : List Char) : List Char :=
  crypt fuel deck text (fun p k => p + k)

/-- Embedding of `lib.rs` `decrypt`. -/
def decrypt (fuel : Nat) (deck : List Nat) (text : List Char) : List Char :=
  crypt fuel deck text (fun c k => c + 26 * 3 - k)

/-! Deck validation (`MaybeDeck::check` in `deck.rs`). -/

/-- Embedding of `deck.rs` `DeckError` (the variants `check` can produce). -/
inductive DeckError
  | wrongNumber
  | notUnique
  | outOfBounds
deriving DecidableEq

/-- Rust `Vec::dedup`: remove consecutive duplicates. -/
def dedupRun : List Nat → List Nat
  | [] => []
  | [a] => [a]
  | a :: b :: t => if a = b then dedupRun (b :: t) else a :: dedupRun (b :: t)

/-- Embedding of `deck.rs` `MaybeDeck::check` (Rust `sort` is modelled by
`insertionSort`, which likewise produces the `≤`-sorted rearrangement). -/
def check (l : List Nat) : Except DeckError (List Nat) :=
  if l.length ≠ DECK_SIZE then .error .wrongNumber
  else
    let scards := dedupRun (List.insertionSort (· ≤ ·) l)
    if scards.length ≠ DECK_SIZE then .error .notUnique
    else if scards.getD 0 0 ≠ 1 ∨ scards.getD (scards.length - 1) 0 ≠ DECK_SIZE then
      .error .outOfBounds
    else .ok l

/-- Reachability from a deck by any sequence of the four primitives (under
the side conditions of claim C2) or the keystream loop body. -/
inductive Reach : List Nat → List Nat → Prop
  | refl (d : List Nat) : Reach d d
  | push_down {d e : List Nat} (c n : Nat) : Reach d e → c ∈ e →
      Reach d (push e c n)
  | tcut {d e : List Nat} (a b : Nat) : Reach d e → a ∈ e → b ∈ e → a ≠ b →
      Reach d (triple_cut e a b)
  | ccut_none {d e : List Nat} : Reach d e → Reach d (count_cut e none)
  | ccut_some {d e : List Nat} (k : Nat) : Reach d e → k ≤ 53 →
      Reach d (count_cut e (some k))
  | kstep {d e : List Nat} : Reach d e → Reach d (step_once e)

example : ks_take 100 9 (List.range' 1 54) = [4, 49, 10, 24, 8, 51, 44, 6, 4] := by decide

example :
    encrypt 100 (List.range' 1 54)
      ['a', 'a', 'a', 'a', 'a', ' ', 'a', 'a', 'a', 'a', 'a'] =
    ['E', 'X', 'K', 'Y', 'I', ' ', 'Z', 'S', 'G', 'E', 'H'] := by decide

example :
    decrypt 100 (List.range' 1 54)
      ['e', 'x', 'k', 'y', 'i', ' ', 'z', 's', 'g', 'e', 'h'] =
    ['A', 'A', 'A', 'A', 'A', ' ', 'A', 'A', 'A', 'A', 'A'] := by decide

example : check (List.range' 1 54) = .ok (List.range' 1 54) := rfl

example : check (List.range' 1 53) = .error .wrongNumber := rfl

example : check (1 :: 1 :: List.range' 3 52) = .error .notUnique := rfl

example : check (0 :: List.range' 2 53) = .error .outOfBounds := rfl

/-! Permutation preservation of the deck primitives. -/

open List

/-- Decompose a list at index `i` into prefix, element and suffix. -/
theorem take_getD_drop (d : List Nat) (i : Nat) (h : i < d.length) :
    d.take i ++ [d.getD i 0] ++ d.drop (i + 1) = d := by
  rw [List.getD_eq_getElem _ _ h, List.append_assoc, List.singleton_append,
    List.getElem_cons_drop, List.take_append_drop]

/-- Swapping two adjacent segments of a concatenation is a permutation. -/
theorem perm_swap_mid (A B C Z : List Nat) :
    (A ++ B ++ C ++ Z).Perm (A ++ C ++ B ++ Z) := by
  have h : (B ++ C).Perm (C ++ B) := List.perm_append_comm
  calc A ++ B ++ C ++ Z = A ++ (B ++ C) ++ Z := by rw [List.append_assoc A B C]
    _ ~ A ++ (C ++ B) ++ Z := (h.append_left A).append_right Z
    _ = A ++ C ++ B ++ Z := by rw [List.append_assoc A C B]

/-- Reversing the order of three concatenated segments is a permutation. -/
theorem perm_rev3 (A B C : List Nat) : (A ++ B ++ C).Perm (C ++ B ++ A) := by
  calc A ++ B ++ C ~ C ++ (A ++ B) := List.perm_append_comm
    _ ~ C ++ (B ++ A) := List.perm_append_comm.append_left C
    _ = C ++ B ++ A := (List.append_assoc C B A).symm

/-- Length of a valid deck. -/
theorem valid_length {d : List Nat} (h : validDeck d) : d.length = 54 := by
  simpa [DECK_SIZE] using List.Perm.length_eq h

/-- A valid deck has no duplicate cards. -/
theorem valid_nodup {d : List Nat} (h : validDeck d) : d.Nodup :=
  (List.Perm.nodup_iff h).2 (List.nodup_range' 1 DECK_SIZE)

/-- Membership in a valid deck is exactly the range `1..=54`. -/
theorem valid_mem {d : List Nat} (h : validDeck d) (x : Nat) :
    x ∈ d ↔ 1 ≤ x ∧ x ≤ 54 := by
  rw [List.Perm.mem_iff h, List.mem_range'_1]
  show 1 ≤ x ∧ x < 1 + DECK_SIZE ↔ _
  simp only [DECK_SIZE]
  omega

/-- `Deck::push` only rearranges the deck. -/
theorem push_perm (d : List Nat) (c n : Nat) (hc : c ∈ d) (hlen : d.length = 54) :
    (push d c n).Perm d := by
  unfold push find
  have hn' : n % DECK_SIZE ≤ 53 := by
    have := Nat.mod_lt n (show 0 < DECK_SIZE by simp [DECK_SIZE])
    simp [DECK_SIZE] at this ⊢
    omega
  set n' := n % DECK_SIZE with hn'def
  set i := d.indexOf c with hidef
  have hilt : i < d.length := List.indexOf_lt_length.2 hc
  by_cases hbr : DECK_SIZE ≤ i + n'
  · simp only [if_pos hbr]
    set dest := (i + n') % (DECK_SIZE - 1) with hdest
    have hdi : dest ≤ i := by
      simp only [DECK_SIZE] at hbr hdest hn'
      omega
    have hsplit : d.take dest ++ (d.take i).drop dest = d.take i := by
      have h1 : (d.take i).take dest = d.take dest := by
        rw [List.take_take, min_eq_left hdi]
      rw [← h1, List.take_append_drop]
    calc d.take dest ++ [d.getD i 0] ++ (d.take i).drop dest ++ d.drop (i + 1)
        ~ d.take dest ++ (d.take i).drop dest ++ [d.getD i 0] ++ d.drop (i + 1) :=
          perm_swap_mid _ _ _ _
      _ = d.take i ++ [d.getD i 0] ++ d.drop (i + 1) := by
          rw [List.append_assoc (d.take dest), ← List.append_assoc (d.take dest), hsplit]
      _ = d := take_getD_drop d i hilt
  · simp only [if_neg hbr]
    have hsplit : (d.take (i + n' + 1)).drop (i + 1) ++ d.drop (i + n' + 1)
        = d.drop (i + 1) := by
      conv_rhs => rw [← List.take_append_drop (i + n' + 1) d]
      rw [List.drop_append_eq_append_drop]
      have hlen2 : i + 1 ≤ (d.take (i + n' + 1)).length := by
        simp [List.length_take]
        omega
      have : i + 1 - (d.take (i + n' + 1)).length = 0 := by omega
      rw [this, List.drop_zero]
    calc d.take i ++ (d.take (i + n' + 1)).drop (i + 1) ++ [d.getD i 0]
          ++ d.drop (i + n' + 1)
        ~ d.take i ++ [d.getD i 0] ++ (d.take (i + n' + 1)).drop (i + 1)
          ++ d.drop (i + n' + 1) := perm_swap_mid _ _ _ _
      _ = d.take i ++ [d.getD i 0] ++ d.drop (i + 1) := by
          rw [List.append_assoc (d.take i ++ [d.getD i 0]), hsplit]
      _ = d := take_getD_drop d i hilt

/-- `Deck::triple_cut` only rearranges the deck. -/
theorem triple_cut_perm (d : List Nat) (c0 c1 : Nat) :
    (triple_cut d c0 c1).Perm d := by
  unfold triple_cut find
  set i0 := min (d.indexOf c0) (d.indexOf c1) with h0
  set i1 := max (d.indexOf c0) (d.indexOf c1) with h1
  have h01 : i0 ≤ i1 + 1 := le_trans (min_le_max) (Nat.le_succ _)
  have hdec : d.take i0 ++ (d.take (i1 + 1)).drop i0 ++ d.drop (i1 + 1) = d := by
    have ht : (d.take (i1 + 1)).take i0 = d.take i0 := by
      rw [List.take_take, min_eq_left h01]
    rw [← ht, List.take_append_drop, List.take_append_drop]
  calc d.drop (i1 + 1) ++ (d.take (i1 + 1)).drop i0 ++ d.take i0
      ~ d.take i0 ++ (d.take (i1 + 1)).drop i0 ++ d.drop (i1 + 1) := perm_rev3 _ _ _
    _ = d := hdec

/-- Core of `Deck::count_cut`: cutting the top 53 cards at any `i ≤ 53`
rearranges the deck. -/
theorem count_cut_core (d : List Nat) (i : Nat) (hi : i ≤ DECK_SIZE - 1) :
    ((d.take (DECK_SIZE - 1)).drop i ++ d.take i ++ d.drop (DECK_SIZE - 1)).Perm d := by
  have ht : (d.take (DECK_SIZE - 1)).take i = d.take i := by
    rw [List.take_take, min_eq_left hi]
  calc (d.take (DECK_SIZE - 1)).drop i ++ d.take i ++ d.drop (DECK_SIZE - 1)
      ~ d.take i ++ (d.take (DECK_SIZE - 1)).drop i ++ d.drop (DECK_SIZE - 1) :=
        (List.perm_append_comm).append_right _
    _ = d := by rw [← ht, List.take_append_drop, List.take_append_drop]

/-- `Deck::count_cut` with an override `k ≤ 53` only rearranges the deck. -/
theorem count_cut_some_perm (d : List Nat) (k : Nat) (hk : k ≤ 53) :
    (count_cut d (some k)).Perm d := by
  unfold count_cut
  exact count_cut_core d k (by simp [DECK_SIZE]; omega)

/-- `Deck::count_cut` keyed by the bottom card of a valid deck only
rearranges the deck. -/
theorem count_cut_none_perm (d : List Nat) (hv : validDeck d) :
    (count_cut d none).Perm d := by
  unfold count_cut
  have hmem : d.getD (DECK_SIZE - 1) 0 ∈ d := by
    have hlt : DECK_SIZE - 1 < d.length := by rw [valid_length hv]; simp [DECK_SIZE]
    rw [List.getD_eq_getElem _ _ hlt]
    exact List.getElem_mem hlt
  have hb := (valid_mem hv _).1 hmem
  by_cases hj : d.getD (DECK_SIZE - 1) 0 = DECK_SIZE
  · simp only [hj, if_pos rfl]
    exact count_cut_core d (DECK_SIZE - 1) le_rfl
  · simp only [if_neg hj]
    exact count_cut_core d _ (by simp [DECK_SIZE] at hb hj ⊢; omega)

/-- Validity is preserved by `push` (card present). -/
theorem valid_push {d : List Nat} (hv : validDeck d) {c : Nat} (n : Nat)
    (hc : c ∈ d) : validDeck (push d c n) :=
  (push_perm d c n hc (valid_length hv)).trans hv

/-- Validity is preserved by `triple_cut`. -/
theorem valid_triple_cut {d : List Nat} (hv : validDeck d) (c0 c1 : Nat) :
    validDeck (triple_cut d c0 c1) :=
  (triple_cut_perm d c0 c1).trans hv

/-- Validity is preserved by `count_cut` with an override at most 53. -/
theorem valid_count_cut_some {d : List Nat} (hv : validDeck d) {k : Nat}
    (hk : k ≤ 53) : validDeck (count_cut d (some k)) :=
  (count_cut_some_perm d k hk).trans hv

/-- Validity is preserved by `count_cut` keyed by the bottom card. -/
theorem valid_count_cut_none {d : List Nat} (hv : validDeck d) :
    validDeck (count_cut d none) :=
  (count_cut_none_perm d hv).trans hv

/-- Validity is preserved by one pass of the keystream loop body. -/
theorem valid_step_once {d : List Nat} (hv : validDeck d) :
    validDeck (step_once d) := by
  unfold step_once
  have h1 : validDeck (push d JOKER_A 1) :=
    valid_push hv 1 ((valid_mem hv _).2 (by simp [JOKER_A]))
  have h2 : validDeck (push (push d JOKER_A 1) JOKER_B 2) :=
    valid_push h1 2 ((valid_mem h1 _).2 (by simp [JOKER_B]))
  exact valid_count_cut_none (valid_triple_cut h2 JOKER_A JOKER_B)

/-- A successful `Deck::output` on a valid deck is a non-joker card value,
hence lies in `1..=52`. -/
theorem output_bounds {d : List Nat} (hv : validDeck d) {v : Nat}
    (h : output d = some v) : 1 ≤ v ∧ v ≤ 52 := by
  have hlen : d.length = 54 := valid_length hv
  set i := (if d.getD 0 0 = DECK_SIZE then DECK_SIZE - 1 else d.getD 0 0) with hi
  have h' : (if is_joker (d.getD i 0) then none else some (d.getD i 0)) = some v := h
  by_cases hj : is_joker (d.getD i 0) = true
  · rw [if_pos hj] at h'
    exact absurd h' (by simp)
  · rw [if_neg hj] at h'
    have hcv : d.getD i 0 = v := by
      have := Option.some.inj h'
      exact this
    have hi54 : i < 54 := by
      have h0m : d.getD 0 0 ∈ d := by
        rw [List.getD_eq_getElem _ _ (by omega)]
        exact List.getElem_mem _
      have hb0 := (valid_mem hv _).1 h0m
      by_cases hc : d.getD 0 0 = DECK_SIZE
      · rw [hi, if_pos hc]; simp [DECK_SIZE]
      · rw [hi, if_neg hc]
        simp only [DECK_SIZE] at hc ⊢
        omega
    have hmem : v ∈ d := by
      rw [← hcv, List.getD_eq_getElem _ _ (by omega)]
      exact List.getElem_mem _
    have hb := (valid_mem hv _).1 hmem
    unfold is_joker at hj
    rw [hcv] at hj
    simp only [DECK_SIZE, Bool.or_eq_true, beq_iff_eq, not_or] at hj
    omega

/-- A successful keystream advancement yields a valid deck and an output
in `1..=52`. -/
theorem next_key_spec : ∀ (fuel : Nat) {d v : _} {d' : List Nat},
    validDeck d → next_key fuel d = some (v, d') →
    validDeck d' ∧ 1 ≤ v ∧ v ≤ 52 := by
  intro fuel
  induction fuel with
  | zero => intro d v d' _ h; simp [next_key] at h
  | succ m ih =>
    intro d v d' hv h
    have hd' : validDeck (step_once d) := valid_step_once hv
    rcases ho : output (step_once d) with _ | w
    · have h2 : next_key m (step_once d) = some (v, d') := by
        rw [next_key] at h
        simpa only [ho] using h
      exact ih hd' h2
    · have h2 : some (w, step_once d) = some (v, d') := by
        rw [next_key] at h
        simpa only [ho] using h
      have hw : w = v := congrArg Prod.fst (Option.some.inj h2)
      have hd2 : step_once d = d' := congrArg Prod.snd (Option.some.inj h2)
      refine ⟨hd2 ▸ hd', ?_⟩
      exact hw ▸ output_bounds hd' ho

/-- All keystream values drawn from a valid deck lie in `1..=52`. -/
theorem ks_take_bounds : ∀ (n fuel : Nat) {d : List Nat}, validDeck d →
    ∀ k ∈ ks_take fuel n d, 1 ≤ k ∧ k ≤ 52 := by
  intro n
  induction n with
  | zero => intro fuel d _ k hk; simp [ks_take] at hk
  | succ m ih =>
    intro fuel d hv k hk
    rw [ks_take] at hk
    rcases hnk : next_key fuel d with _ | ⟨v, d'⟩
    · rw [hnk] at hk; simp at hk
    · rw [hnk] at hk
      rcases List.mem_cons.1 hk with h | h
      · exact h ▸ (next_key_spec fuel hv hnk).2
      · exact ih fuel (next_key_spec fuel hv hnk).1 k h

/-- C2: for every deck that is a permutation of 1..54, push-down (any card
present, any n), triple-cut (distinct present cards), count-cut (bottom-card
keyed, or an override k ≤ 53) and the keystream step each leave the deck a
permutation of 1..54, and hence so does any sequence of these operations. -/
theorem c2_operations_preserve_validity {d : List Nat} (hv : validDeck d) :
    (∀ c n, c ∈ d → validDeck (push d c n)) ∧
    (∀ a b, a ∈ d → b ∈ d → a ≠ b → validDeck (triple_cut d a b)) ∧
    (∀ k, k ≤ 53 → validDeck (count_cut d (some k))) ∧
    validDeck (count_cut d none) ∧
    validDeck (step_once d) ∧
    (∀ e, Reach d e → validDeck e) := by
  refine ⟨fun c n hc => valid_push hv n hc,
    fun a b ha _ _ => valid_triple_cut hv a b,
    fun k hk => valid_count_cut_some hv hk,
    valid_count_cut_none hv,
    valid_step_once hv,
    fun e hr => ?_⟩
  induction hr with
  | refl => exact hv
  | push_down c n _ hc ih => exact valid_push ih n hc
  | tcut a b _ _ _ _ ih => exact valid_triple_cut ih a b
  | ccut_none _ ih => exact valid_count_cut_none ih
  | ccut_some k _ hk ih => exact valid_count_cut_some ih hk
  | kstep _ ih => exact valid_step_once ih

/-- Witness for C2 at the fresh sorted deck and a concrete push. -/
theorem c2_witness : validDeck (push (List.range' 1 54) 1 1) :=
  (c2_operations_preserve_validity (List.Perm.refl _)).1 1 1 (by decide)

/-- C3: from the fresh sorted deck 1..54, the first 9 keystream values (raw
1..52 view) are exactly [4, 49, 10, 24, 8, 51, 44, 6, 4]; in particular the
first 8 are [4, 49, 10, 24, 8, 51, 44, 6] and the 9th is 4, not the textbook
misprint 33. -/
theorem c3_first_nine_keystream_values :
    ks_take 100 9 (List.range' 1 54) = [4, 49, 10, 24, 8, 51, 44, 6, 4] ∧
    ks_take 100 8 (List.range' 1 54) = [4, 49, 10, 24, 8, 51, 44, 6] ∧
    (ks_take 100 9 (List.range' 1 54)).getD 8 0 = 4 ∧
    (ks_take 100 9 (List.range' 1 54)).getD 8 0 ≠ 33 := by
  refine ⟨by decide, by decide, by decide, by decide⟩

/-- C4 counterexample: the keystream iterator yields its values unreduced;
already the second value from the fresh deck is 49, which is not in 1..26. -/
theorem c4_counterexample :
    ks_take 100 2 (List.range' 1 54) = [4, 49] ∧ ¬(49 ≤ 26) :=
  ⟨by decide, by decide⟩

/-- C4 amended: every value yielded by the keystream iterator from a valid
deck lies in 1..=52; the reduction by ((v - 1) mod 26) happens only later,
in the restore stage of the text pipeline. -/
theorem c4_amended {d : List Nat} (hv : validDeck d) (fuel n : Nat) :
    ∀ k ∈ ks_take fuel n d, 1 ≤ k ∧ k ≤ 52 :=
  ks_take_bounds n fuel hv

/-- Witness for C4's amended statement at the fresh deck. -/
theorem c4_amended_witness : 1 ≤ 49 ∧ 49 ≤ 52 :=
  c4_amended (List.Perm.refl _) 100 2 49 (by decide)

/-- Pushing by any multiple of 54 leaves the deck unchanged, because `push`
reduces its displacement modulo `DECK_SIZE = 54` up front. -/
theorem push_mod_zero {d : List Nat} (hlen : d.length = 54) {c : Nat}
    (hc : c ∈ d) {n : Nat} (hn : n % DECK_SIZE = 0) : push d c n = d := by
  have hilt : d.indexOf c < d.length := List.indexOf_lt_length.2 hc
  simp only [push, find, hn, Nat.add_zero]
  rw [if_neg (by simp only [DECK_SIZE]; omega)]
  have hnil : (d.take (d.indexOf c + 1)).drop (d.indexOf c + 1) = [] :=
    List.drop_eq_nil_of_le (by simp)
  rw [hnil, List.append_nil, take_getD_drop d _ hilt]

/-- C5 counterexample: on the fresh sorted deck, pushing card 1 down by 54
is not the same as pushing it down by 1 (it is the identity instead). -/
theorem c5_counterexample :
    push (List.range' 1 54) 1 54 ≠ push (List.range' 1 54) 1 1 := by decide

/-- C5 amended: push-down by 0 is the identity and, because the displacement
is reduced modulo the deck size 54 before being applied, push-down by 54 is
also the identity — not equivalent to push-down by 1. -/
theorem c5_amended {d : List Nat} (hv : validDeck d) {c : Nat} (hc : c ∈ d) :
    push d c 0 = d ∧ push d c 54 = d :=
  ⟨push_mod_zero (valid_length hv) hc (by decide),
   push_mod_zero (valid_length hv) hc (by decide)⟩

/-- Witness for C5's amended statement on the fresh deck. -/
theorem c5_amended_witness :
    push (List.range' 1 54) 7 0 = List.range' 1 54 ∧
    push (List.range' 1 54) 7 54 = List.range' 1 54 :=
  c5_amended (List.Perm.refl _) (by decide)

/-- Behaviour of `pad` at group size 5 on an arbitrary stream. -/
theorem pad_spec (l : List Nat) (p : Nat) :
    (pad l p GROUP_SIZE).length % 5 = 0 ∧
    l.length ≤ (pad l p GROUP_SIZE).length ∧
    (pad l p GROUP_SIZE).length < l.length + 5 ∧
    (pad l p GROUP_SIZE).take l.length = l ∧
    (pad l p GROUP_SIZE).drop l.length =
      List.replicate ((pad l p GROUP_SIZE).length - l.length) p := by
  unfold pad
  by_cases h : l.length % GROUP_SIZE = 0
  · rw [if_pos h]
    simp only [GROUP_SIZE] at h
    refine ⟨h, le_rfl, by omega, List.take_length l, ?_⟩
    simp
  · rw [if_neg h]
    simp only [GROUP_SIZE] at h ⊢
    have hlen : (l ++ List.replicate (5 - l.length % 5) p).length
        = l.length + (5 - l.length % 5) := by simp
    refine ⟨by rw [hlen]; omega, by rw [hlen]; omega, by rw [hlen]; omega,
      List.take_left l _, ?_⟩
    rw [List.drop_left l _, hlen]
    congr 1
    omega

/-- C7: the filter-encode-pad stage produces a stream whose length is the
least multiple of 5 that is at least the number of ASCII letters of the
input (characterised by: divisible by 5, at least the letter count, and
less than letter count + 5); the original encoded letters form the prefix,
every appended element is the pad value 24, and an input without ASCII
letters yields the empty stream. -/
theorem c7_pad_properties (s : List Char) :
    (pad (textbyte s) PAD_CHAR GROUP_SIZE).length % 5 = 0 ∧
    (textbyte s).length ≤ (pad (textbyte s) PAD_CHAR GROUP_SIZE).length ∧
    (pad (textbyte s) PAD_CHAR GROUP_SIZE).length < (textbyte s).length + 5 ∧
    (pad (textbyte s) PAD_CHAR GROUP_SIZE).take (textbyte s).length
      = textbyte s ∧
    (pad (textbyte s) PAD_CHAR GROUP_SIZE).drop (textbyte s).length
      = List.replicate ((pad (textbyte s) PAD_CHAR GROUP_SIZE).length
          - (textbyte s).length) PAD_CHAR ∧
    (textbyte s = [] → pad (textbyte s) PAD_CHAR GROUP_SIZE = []) := by
  obtain ⟨h1, h2, h3, h4, h5⟩ := pad_spec (textbyte s) PAD_CHAR
  refine ⟨h1, h2, h3, h4, h5, fun he => ?_⟩
  rw [he]
  simp [pad]

/-- Witness for C7 at the letterless input ".". -/
theorem c7_witness : pad (textbyte ['.']) PAD_CHAR GROUP_SIZE = [] :=
  (c7_pad_properties ['.']).2.2.2.2.2 (by decide)

/-- Roundtrip of `Char.ofNat` on codepoints below the surrogate range. -/
theorem char_ofNat_toNat {n : Nat} (h : n < 0xd800) : (Char.ofNat n).toNat = n := by
  unfold Char.ofNat
  rw [dif_pos (Or.inl h)]
  unfold Char.ofNatAux Char.toNat
  simp [UInt32.toNat, BitVec.toNat_ofNatLt]

/-- Every encoded letter produced by `textbyte` lies in 1..=26. -/
theorem textbyte_bounds (s : List Char) : ∀ x ∈ textbyte s, 1 ≤ x ∧ x ≤ 26 := by
  intro x hx
  unfold textbyte at hx
  rcases List.mem_map.1 hx with ⟨c, hc, rfl⟩
  have hf := List.of_mem_filter hc
  unfold is_ascii_alphabetic at hf
  simp only [Bool.or_eq_true, Bool.and_eq_true, decide_eq_true_eq] at hf
  unfold to_ascii_uppercase
  rcases hf with ⟨h1, h2⟩ | ⟨h1, h2⟩
  · rw [if_neg (by simp only [Bool.and_eq_true, decide_eq_true_eq, not_and]; omega)]
    omega
  · rw [if_pos (by simp only [Bool.and_eq_true, decide_eq_true_eq]; omega)]
    rw [char_ofNat_toNat (by omega)]
    omega

/-- Every element of the padded plaintext stream lies in 1..=26. -/
theorem pad_textbyte_bounds (s : List Char) :
    ∀ p ∈ pad (textbyte s) PAD_CHAR GROUP_SIZE, 1 ≤ p ∧ p ≤ 26 := by
  intro p hp
  unfold pad at hp
  by_cases h : (textbyte s).length % GROUP_SIZE = 0
  · rw [if_pos h] at hp
    exact textbyte_bounds s p hp
  · rw [if_neg h] at hp
    rcases List.mem_append.1 hp with hl | hr
    · exact textbyte_bounds s p hl
    · have := List.eq_of_mem_replicate hr
      subst this
      simp [PAD_CHAR]

/-- C10: the plaintext-side streams lie in 1..=26, keystream values lie in
1..=52, hence encrypt's p + k lies in 2..=78 and decrypt's c + 26*3 - k in
27..=103 — all well inside `u8` range and at least 1, so restore's
(b - 1) mod 26 mapping never underflows. -/
theorem c10_combine_arithmetic_bounds {d : List Nat} (hv : validDeck d)
    (s : List Char) (fuel n : Nat) :
    (∀ p ∈ pad (textbyte s) PAD_CHAR GROUP_SIZE, 1 ≤ p ∧ p ≤ 26) ∧
    (∀ k ∈ ks_take fuel n d, 1 ≤ k ∧ k ≤ 52) ∧
    (∀ p k, 1 ≤ p → p ≤ 26 → 1 ≤ k → k ≤ 52 →
      2 ≤ p + k ∧ p + k ≤ 78 ∧ 1 ≤ p + 26 * 3 - k ∧
      27 ≤ p + 26 * 3 - k ∧ p + 26 * 3 - k ≤ 103) :=
  ⟨pad_textbyte_bounds s, ks_take_bounds n fuel hv,
   fun p k h1 h2 h3 h4 => by omega⟩

/-- Witness for C10 with the fresh deck and concrete stream values. -/
theorem c10_witness :
    2 ≤ 1 + 4 ∧ 1 + 4 ≤ 78 ∧ 1 ≤ 1 + 26 * 3 - 4 ∧
    27 ≤ 1 + 26 * 3 - 4 ∧ 1 + 26 * 3 - 4 ≤ 103 :=
  (c10_combine_arithmetic_bounds (List.Perm.refl (List.range' 1 54)) ['a'] 10 5).2.2
    1 4 (by decide) (by decide) (by decide) (by decide)

/-- Whenever position `j` of a duplicate-free list holds value `v`, the index
of `v` in the list is `j`. -/
theorem indexOf_of_getElem_some {l : List Nat} (hnd : l.Nodup) {j v : Nat}
    (h : l[j]? = some v) : l.indexOf v = j := by
  obtain ⟨hj, hv⟩ := List.getElem?_eq_some.1 h
  have hmem : v ∈ l := hv ▸ List.getElem_mem hj
  have hlt : l.indexOf v < l.length := List.indexOf_lt_length.2 hmem
  have h1 := List.getElem_indexOf hlt
  exact (hnd.getElem_inj_iff).1 (h1.trans hv.symm)

/-- Option-valued indexing into the middle segment of a three-segment
concatenation. -/
theorem getElem?_append_middle (X Y Z : List Nat) (j : Nat) (hj : j < Y.length) :
    (X ++ Y ++ Z)[X.length + j]? = Y[j]? := by
  rw [List.append_assoc, List.getElem?_append_right (by omega)]
  have he : X.length + j - X.length = j := by omega
  rw [he, List.getElem?_append, if_pos hj]

/-- C6: applying triple-cut twice with the same two distinct present anchors
returns the deck to its original permutation. -/
theorem c6_triple_cut_involution {d : List Nat} (hv : validDeck d) {a b : Nat}
    (ha : a ∈ d) (hb : b ∈ d) (hab : a ≠ b) :
    triple_cut (triple_cut d a b) a b = d := by
  have hlen : d.length = 54 := valid_length hv
  have hnd : d.Nodup := valid_nodup hv
  have hja_lt : d.indexOf a < d.length := List.indexOf_lt_length.2 ha
  have hjb_lt : d.indexOf b < d.length := List.indexOf_lt_length.2 hb
  have hne : d.indexOf a ≠ d.indexOf b := by
    intro h
    apply hab
    have h1 := List.getElem_indexOf hja_lt
    have h2 := List.getElem_indexOf hjb_lt
    rw [← h1, ← h2]
    exact (hnd.getElem_inj_iff).2 h
  have hgja : d[d.indexOf a]? = some a := by
    rw [List.getElem?_eq_getElem hja_lt, List.getElem_indexOf hja_lt]
  have hgjb : d[d.indexOf b]? = some b := by
    rw [List.getElem?_eq_getElem hjb_lt, List.getElem_indexOf hjb_lt]
  set ja := d.indexOf a with hja
  set jb := d.indexOf b with hjb
  set i0 := min ja jb with hi0
  set i1 := max ja jb with hi1
  have h01 : i0 < i1 := by
    rcases lt_or_gt_of_ne hne with h | h
    · rw [hi0, hi1, min_eq_left h.le, max_eq_right h.le]; exact h
    · rw [hi0, hi1, min_eq_right h.le, max_eq_left h.le]; exact h
  have hi1_lt : i1 < 54 := by
    rw [hlen] at hja_lt hjb_lt
    exact max_lt hja_lt hjb_lt
  set A := d.take i0 with hA
  set B := (d.take (i1 + 1)).drop i0 with hB
  set C := d.drop (i1 + 1) with hC
  have hAlen : A.length = i0 := by
    rw [hA, List.length_take, hlen]; exact min_eq_left (by omega)
  have hBlen : B.length = i1 + 1 - i0 := by
    rw [hB, List.length_drop, List.length_take, hlen, min_eq_left (by omega)]
  have hClen : C.length = 53 - i1 := by
    rw [hC, List.length_drop, hlen]
    omega
  have hd_decomp : A ++ B ++ C = d := by
    rw [hA, hB, hC]
    have ht : (d.take (i1 + 1)).take i0 = d.take i0 := by
      rw [List.take_take, min_eq_left (by omega)]
    rw [← ht, List.take_append_drop, List.take_append_drop]
  have hN : triple_cut d a b = C ++ B ++ A := by
    simp only [triple_cut, find, ← hja, ← hjb, ← hi0, ← hi1, hA, hB, hC]
  have hB0 : B[(0 : Nat)]? = d[i0]? := by
    rw [hB, List.getElem?_drop, List.getElem?_take, if_pos (by omega), Nat.add_zero]
  have hB1 : B[i1 - i0]? = d[i1]? := by
    rw [hB, List.getElem?_drop]
    have he : i0 + (i1 - i0) = i1 := by omega
    rw [he, List.getElem?_take, if_pos (by omega)]
  have hNv : validDeck (C ++ B ++ A) := hN ▸ valid_triple_cut hv a b
  have hNnd : (C ++ B ++ A).Nodup := valid_nodup hNv
  have hmid0 : (C ++ B ++ A)[53 - i1]? = d[i0]? := by
    have h := getElem?_append_middle C B A 0 (by omega)
    have he : C.length + 0 = 53 - i1 := by omega
    rw [he] at h
    rw [h, hB0]
  have hmid1 : (C ++ B ++ A)[53 - i0]? = d[i1]? := by
    have h := getElem?_append_middle C B A (i1 - i0) (by omega)
    have he : C.length + (i1 - i0) = 53 - i0 := by omega
    rw [he] at h
    rw [h, hB1]
  have hminmax : min ((C ++ B ++ A).indexOf a) ((C ++ B ++ A).indexOf b)
        = 53 - i1 ∧
      max ((C ++ B ++ A).indexOf a) ((C ++ B ++ A).indexOf b) = 53 - i0 := by
    rcases lt_or_gt_of_ne hne with h | h
    · have e0 : i0 = ja := by rw [hi0, min_eq_left h.le]
      have e1 : i1 = jb := by rw [hi1, max_eq_right h.le]
      have hia : (C ++ B ++ A).indexOf a = 53 - i1 :=
        indexOf_of_getElem_some hNnd (by rw [hmid0, e0, hgja])
      have hib : (C ++ B ++ A).indexOf b = 53 - i0 :=
        indexOf_of_getElem_some hNnd (by rw [hmid1, e1, hgjb])
      rw [hia, hib]
      exact ⟨min_eq_left (by omega), max_eq_right (by omega)⟩
    · have e0 : i0 = jb := by rw [hi0, min_eq_right h.le]
      have e1 : i1 = ja := by rw [hi1, max_eq_left h.le]
      have hia : (C ++ B ++ A).indexOf a = 53 - i0 :=
        indexOf_of_getElem_some hNnd (by rw [hmid1, e1, hgja])
      have hib : (C ++ B ++ A).indexOf b = 53 - i1 :=
        indexOf_of_getElem_some hNnd (by rw [hmid0, e0, hgjb])
      rw [hia, hib]
      exact ⟨min_eq_right (by omega), max_eq_left (by omega)⟩
  have hCB_len : (C ++ B).length = 54 - i0 := by
    rw [List.length_append]; omega
  have hsecond : triple_cut (C ++ B ++ A) a b = A ++ B ++ C := by
    simp only [triple_cut, find, hminmax.1, hminmax.2]
    have e2 : 53 - i0 + 1 = 54 - i0 := by omega
    rw [e2]
    have hdropA : (C ++ B ++ A).drop (54 - i0) = A :=
      List.drop_left' hCB_len
    have htakeC : (C ++ B ++ A).take (53 - i1) = C := by
      rw [List.append_assoc]
      exact List.take_left' hClen
    have hmidB : ((C ++ B ++ A).take (54 - i0)).drop (53 - i1) = B := by
      have htk : (C ++ B ++ A).take (54 - i0) = C ++ B :=
        List.take_left' hCB_len
      rw [htk]
      exact List.drop_left' hClen
    rw [hdropA, hmidB, htakeC]
  rw [hN, hsecond, hd_decomp]

/-- Witness for C6: the involution at the fresh deck with anchors 10 and 20. -/
theorem c6_witness :
    triple_cut (triple_cut (List.range' 1 54) 10 20) 10 20 = List.range' 1 54 :=
  c6_triple_cut_involution (List.Perm.refl _) (by decide) (by decide) (by decide)

/-! Lemmas about `Vec::dedup` (consecutive-duplicate removal) and sortedness,
used to characterise `MaybeDeck::check`. -/

/-- `dedupRun` only drops elements. -/
theorem dedupRun_sublist : ∀ l : List Nat, (dedupRun l).Sublist l
  | [] => by simp [dedupRun]
  | [a] => by simp [dedupRun]
  | a :: b :: t => by
    rw [dedupRun]
    by_cases h : a = b
    · rw [if_pos h]
      exact (dedupRun_sublist (b :: t)).cons a
    · rw [if_neg h]
      exact (dedupRun_sublist (b :: t)).cons₂ a

/-- On a `≤`-sorted list, removing consecutive duplicates removes all
duplicates. -/
theorem dedupRun_nodup : ∀ {l : List Nat}, l.Sorted (· ≤ ·) → (dedupRun l).Nodup
  | [], _ => by simp [dedupRun]
  | [a], _ => by simp [dedupRun]
  | a :: b :: t, hs => by
    have hs' : (b :: t).Sorted (· ≤ ·) := hs.of_cons
    rw [dedupRun]
    by_cases h : a = b
    · rw [if_pos h]
      exact dedupRun_nodup hs'
    · rw [if_neg h]
      refine List.nodup_cons.2 ⟨?_, dedupRun_nodup hs'⟩
      intro hmem
      have hmem' : a ∈ b :: t := (dedupRun_sublist (b :: t)).mem hmem
      have hab : a ≤ b := (List.sorted_cons.1 hs).1 b (List.mem_cons_self b t)
      rcases List.mem_cons.1 hmem' with rfl | hmem2
      · exact h rfl
      · have hba : b ≤ a := (List.sorted_cons.1 hs').1 a hmem2
        exact h (le_antisymm hab hba)

/-- `dedupRun` leaves a duplicate-free list unchanged. -/
theorem dedupRun_eq_self : ∀ {l : List Nat}, l.Nodup → dedupRun l = l
  | [], _ => by simp [dedupRun]
  | [a], _ => by simp [dedupRun]
  | a :: b :: t, hnd => by
    rw [dedupRun]
    have hab : a ≠ b := by
      intro h
      exact (List.nodup_cons.1 hnd).1 (h ▸ List.mem_cons_self b t)
    rw [if_neg hab, dedupRun_eq_self (List.nodup_cons.1 hnd).2]

/-- A sorted duplicate-free list of length 54 that starts at 1 and ends at 54
is exactly `1..=54`. -/
theorem sorted_nodup_ends_eq_range {l : List Nat} (hs : l.Sorted (· ≤ ·))
    (hnd : l.Nodup) (hlen : l.length = 54) (h0 : l.getD 0 0 = 1)
    (h53 : l.getD 53 0 = 54) : l = List.range' 1 54 := by
  have hle : ∀ i j, i < j → j < 54 → l.getD i 0 ≤ l.getD j 0 := by
    intro i j hij hj
    rw [List.getD_eq_getElem l 0 (show i < l.length by omega),
      List.getD_eq_getElem l 0 (show j < l.length by omega)]
    exact List.pairwise_iff_getElem.1 hs i j (by omega) (by omega) hij
  have hne : ∀ i j, i < j → j < 54 → l.getD i 0 ≠ l.getD j 0 := by
    intro i j hij hj he
    rw [List.getD_eq_getElem l 0 (show i < l.length by omega),
      List.getD_eq_getElem l 0 (show j < l.length by omega)] at he
    exact absurd ((hnd.getElem_inj_iff).1 he) (Nat.ne_of_lt hij)
  have hlt : ∀ i j, i < j → j < 54 → l.getD i 0 < l.getD j 0 := fun i j hij hj =>
    lt_of_le_of_ne (hle i j hij hj) (hne i j hij hj)
  have hlow : ∀ i, i < 54 → i + 1 ≤ l.getD i 0 := by
    intro i
    induction i with
    | zero => intro _; omega
    | succ k ih =>
      intro hk
      have h1 := ih (by omega)
      have h2 := hlt k (k + 1) (by omega) hk
      omega
  have hup : ∀ k, k ≤ 53 → l.getD (53 - k) 0 ≤ 54 - k := by
    intro k
    induction k with
    | zero => intro _; simp only [Nat.sub_zero]; omega
    | succ m ih =>
      intro hm
      have h1 := ih (by omega)
      have h2 := hlt (53 - (m + 1)) (53 - m) (by omega) (by omega)
      omega
  refine List.ext_getElem (by simp [hlen]) ?_
  intro i h1 h2
  have hi : i < 54 := by omega
  have e1 := hlow i hi
  have e2 := hup (53 - i) (by omega)
  have e3 : 53 - (53 - i) = i := by omega
  rw [e3] at e2
  rw [List.getElem_range'_1 i (by simpa using hi)]
  rw [List.getD_eq_getElem _ _ (by omega)] at e1 e2
  omega

/-- The validation order of `MaybeDeck::check`: the sorted deck. -/
theorem check_classification (l : List Nat) :
    (l.length ≠ 54 → check l = .error .wrongNumber) ∧
    (l.length = 54 → ¬ l.Nodup → check l = .error .notUnique) ∧
    (l.length = 54 → l.Nodup → ¬ validDeck l → check l = .error .outOfBounds) ∧
    (validDeck l → check l = .ok l) := by
  have hperm : (List.insertionSort (· ≤ ·) l).Perm l := List.perm_insertionSort _ l
  have hsort : (List.insertionSort (· ≤ ·) l).Sorted (· ≤ ·) :=
    List.sorted_insertionSort _ l
  refine ⟨fun hlen => ?_, fun hlen hnd => ?_, fun hlen hnd hnv => ?_, fun hv => ?_⟩
  · simp only [check, DECK_SIZE]
    rw [if_pos hlen]
  · simp only [check, DECK_SIZE]
    rw [if_neg (by omega)]
    have hslen : (List.insertionSort (· ≤ ·) l).length = 54 := hperm.length_eq.trans hlen
    have hkey : (dedupRun (List.insertionSort (· ≤ ·) l)).length ≠ 54 := by
      intro hcontra
      have hsub := dedupRun_sublist (List.insertionSort (· ≤ ·) l)
      have heq := hsub.eq_of_length (by omega)
      have : (List.insertionSort (· ≤ ·) l).Nodup := heq ▸ dedupRun_nodup hsort
      exact hnd (hperm.nodup_iff.1 this)
    rw [if_pos hkey]
  · simp only [check, DECK_SIZE]
    rw [if_neg (by omega)]
    have hslen : (List.insertionSort (· ≤ ·) l).length = 54 := hperm.length_eq.trans hlen
    have hsnd : (List.insertionSort (· ≤ ·) l).Nodup := hperm.nodup_iff.2 hnd
    have hded : dedupRun (List.insertionSort (· ≤ ·) l) = List.insertionSort (· ≤ ·) l :=
      dedupRun_eq_self hsnd
    rw [hded, if_neg (by omega)]
    have hkey : (List.insertionSort (· ≤ ·) l).getD 0 0 ≠ 1 ∨
        (List.insertionSort (· ≤ ·) l).getD ((List.insertionSort (· ≤ ·) l).length - 1) 0 ≠ 54 := by
      by_contra hcon
      push_neg at hcon
      obtain ⟨he0, he53⟩ := hcon
      rw [hslen] at he53
      have := sorted_nodup_ends_eq_range hsort hsnd hslen he0 he53
      exact hnv ((hperm.symm.trans (this ▸ List.Perm.refl _)))
    rw [if_pos hkey]
  · have hlen : l.length = 54 := valid_length hv
    have hseq : List.insertionSort (· ≤ ·) l = List.range' 1 54 := by
      refine List.eq_of_perm_of_sorted (hperm.trans hv) hsort ?_
      exact List.Pairwise.imp le_of_lt (List.pairwise_lt_range' ..)
    simp only [check, DECK_SIZE]
    rw [if_neg (by omega), hseq]
    rw [dedupRun_eq_self (by simpa [hseq] using List.nodup_range' 1 54)]
    rw [if_neg (by simp), if_neg (by decide)]

/-- C8: `MaybeDeck::check` succeeds exactly on permutations of 1..=54 (and
then returns the parsed deck unchanged); otherwise it fails with the
dedicated error for the first violated condition: wrong-count when the
length is not 54, not-unique when the 54 values contain a duplicate, and
out-of-bounds when the values are unique and 54 in number but not a
permutation of 1..=54. -/
theorem c8_check_spec (l : List Nat) :
    ((∃ d, check l = .ok d) ↔ validDeck l) ∧
    (validDeck l → check l = .ok l) ∧
    (l.length ≠ 54 → check l = .error .wrongNumber) ∧
    (l.length = 54 → ¬ l.Nodup → check l = .error .notUnique) ∧
    (l.length = 54 → l.Nodup → ¬ validDeck l → check l = .error .outOfBounds) := by
  obtain ⟨h1, h2, h3, h4⟩ := check_classification l
  refine ⟨⟨?_, fun hv => ⟨l, h4 hv⟩⟩, h4, h1, h2, h3⟩
  rintro ⟨d, hd⟩
  by_contra hnv
  by_cases hlen : l.length = 54
  · by_cases hnd : l.Nodup
    · rw [h3 hlen hnd hnv] at hd
      exact absurd hd (by simp)
    · rw [h2 hlen hnd] at hd
      exact absurd hd (by simp)
  · rw [h1 hlen] at hd
    exact absurd hd (by simp)

/-- Witness for C8 on the sorted full deck. -/
theorem c8_witness : check (List.range' 1 54) = .ok (List.range' 1 54) :=
  (c8_check_spec (List.range' 1 54)).2.1 (List.Perm.refl _)

/-! The encrypt/decrypt round trip (claim C1). -/

/-- `textbyte` distributes over append. -/
theorem textbyte_append (l1 l2 : List Char) :
    textbyte (l1 ++ l2) = textbyte l1 ++ textbyte l2 := by
  unfold textbyte
  rw [List.filter_append, List.map_append]

/-- `textbyte` drops a leading non-letter. -/
theorem textbyte_cons_not_alpha {c : Char} (hc : is_ascii_alphabetic c = false)
    (l : List Char) : textbyte (c :: l) = textbyte l := by
  unfold textbyte
  rw [List.filter_cons_of_neg (by simp [hc])]

/-- Joining the chunks recovers the original list. -/
theorem chunksAux_join {g : Nat} (hg : 0 < g) :
    ∀ (fuel : Nat) (l : List Char), l.length ≤ fuel → (chunksAux g fuel l).flatten = l := by
  intro fuel
  induction fuel with
  | zero =>
    intro l hl
    have hnil : l = [] := List.length_eq_zero.1 (by omega)
    subst hnil
    rfl
  | succ m ih =>
    intro l hl
    cases l with
    | nil => rfl
    | cons a t =>
      rw [chunksAux, List.flatten_cons,
        ih ((a :: t).drop g) (by simp only [List.length_drop, List.length_cons] at hl ⊢; omega)]
      exact List.take_append_drop g (a :: t)

/-- Letters are unaffected by the group separator insertion of `sepJoin`. -/
theorem textbyte_sepJoin {sep : Char} (hsep : is_ascii_alphabetic sep = false) :
    ∀ cs : List (List Char), textbyte (sepJoin sep cs) = textbyte cs.flatten
  | [] => rfl
  | [c] => by rw [sepJoin, List.flatten_cons, List.flatten_nil, List.append_nil]
  | c :: c2 :: t => by
    rw [sepJoin, List.flatten_cons, textbyte_append, textbyte_append,
      textbyte_cons_not_alpha hsep, textbyte_sepJoin hsep (c2 :: t)]

/-- The grouped output of `separate` has exactly the letters of its input. -/
theorem textbyte_separate (l : List Char) {g : Nat} (hg : 0 < g) :
    textbyte (separate l ' ' g) = textbyte l := by
  unfold separate chunks
  rw [textbyte_sepJoin (by decide), chunksAux_join hg l.length l le_rfl]

/-- The letters recovered from `restore`d text are the byte reductions
`((b - 1) % 26) + 1`. -/
theorem textbyte_restore (C : List Nat) :
    textbyte (restore C) = C.map (fun b => (b - 1) % 26 + 1) := by
  induction C with
  | nil => rfl
  | cons b t ih =>
    have hmod : (b - 1) % 26 < 26 := Nat.mod_lt _ (by norm_num)
    have htoNat : (Char.ofNat ((b - 1) % 26 + 65)).toNat = (b - 1) % 26 + 65 :=
      char_ofNat_toNat (by omega)
    unfold restore at ih ⊢
    rw [List.map_cons]
    unfold textbyte at ih ⊢
    rw [List.filter_cons_of_pos (by
      unfold is_ascii_alphabetic
      simp only [htoNat, Bool.or_eq_true, Bool.and_eq_true, decide_eq_true_eq]
      omega)]
    rw [List.map_cons, ih, List.map_cons]
    congr 1
    unfold to_ascii_uppercase
    rw [if_neg (by simp only [htoNat, Bool.and_eq_true, decide_eq_true_eq, not_and]; omega)]
    rw [htoNat]
    omega

/-- Pointwise inversion: decrypt-combining the reduced encrypt-combination
with the same keystream restores the plaintext letters. -/
theorem restore_decrypt_encrypt : ∀ (P K : List Nat),
    (∀ p ∈ P, 1 ≤ p ∧ p ≤ 26) → (∀ k ∈ K, 1 ≤ k ∧ k ≤ 52) → P.length = K.length →
    restore (List.zipWith (fun c k => c + 26 * 3 - k)
      (List.map (fun b => (b - 1) % 26 + 1) (List.zipWith (fun p k => p + k) P K)) K)
      = restore P
  | [], K, _, _, _ => rfl
  | p :: P2, [], _, _, hlen => by simp at hlen
  | p :: P2, k :: K2, hP, hK, hlen => by
    have hp := hP p (List.mem_cons_self _ _)
    have hk := hK k (List.mem_cons_self _ _)
    have ih := restore_decrypt_encrypt P2 K2
      (fun x hx => hP x (List.mem_cons_of_mem _ hx))
      (fun x hx => hK x (List.mem_cons_of_mem _ hx))
      (by simpa using hlen)
    unfold restore at ih ⊢
    simp only [List.zipWith_cons_cons, List.map_cons]
    rw [ih]
    congr 2
    omega

/-- C1: decrypting with the same initial deck is a left inverse of
encryption on the normalized plaintext: whenever the keystream advances
successfully for the whole message (the fuel hypothesis `hks`),
`decrypt(deck, encrypt(deck, m))` is exactly the uppercased, letters-only,
X-padded, 5-grouped form of `m`. -/
theorem c1_decrypt_left_inverse (fuel : Nat) (d : List Nat) (m : List Char)
    (hv : validDeck d)
    (hks : (ks_take fuel (pad (textbyte m) PAD_CHAR GROUP_SIZE).length d).length
        = (pad (textbyte m) PAD_CHAR GROUP_SIZE).length) :
    decrypt fuel d (encrypt fuel d m)
      = separate (restore (pad (textbyte m) PAD_CHAR GROUP_SIZE)) ' ' GROUP_SIZE := by
  set P := pad (textbyte m) PAD_CHAR GROUP_SIZE with hP
  set K := ks_take fuel P.length d with hK
  have hPb : ∀ p ∈ P, 1 ≤ p ∧ p ≤ 26 := by rw [hP]; exact pad_textbyte_bounds m
  have hKb : ∀ k ∈ K, 1 ≤ k ∧ k ≤ 52 := by rw [hK]; exact ks_take_bounds P.length fuel hv
  have h5 : P.length % 5 = 0 := by rw [hP]; exact (pad_spec (textbyte m) PAD_CHAR).1
  have henc : encrypt fuel d m
      = separate (restore (List.zipWith (fun p k => p + k) P K)) ' ' GROUP_SIZE := rfl
  have hct : textbyte (encrypt fuel d m)
      = List.map (fun b => (b - 1) % 26 + 1) (List.zipWith (fun p k => p + k) P K) := by
    rw [henc, textbyte_separate _ (by norm_num [GROUP_SIZE]), textbyte_restore]
  have hDlen : (List.map (fun b => (b - 1) % 26 + 1)
      (List.zipWith (fun p k => p + k) P K)).length = P.length := by
    rw [List.length_map, List.length_zipWith, hks, Nat.min_self]
  have hctlen : (textbyte (encrypt fuel d m)).length = P.length := by
    rw [hct, hDlen]
  have hpadct : pad (textbyte (encrypt fuel d m)) PAD_CHAR GROUP_SIZE
      = textbyte (encrypt fuel d m) := by
    unfold pad
    rw [if_pos (by rw [hctlen]; simp only [GROUP_SIZE]; exact h5)]
  have hdec : decrypt fuel d (encrypt fuel d m)
      = separate (restore (List.zipWith (fun c k => c + 26 * 3 - k)
          (pad (textbyte (encrypt fuel d m)) PAD_CHAR GROUP_SIZE)
          (ks_take fuel (pad (textbyte (encrypt fuel d m)) PAD_CHAR GROUP_SIZE).length d)))
          ' ' GROUP_SIZE := rfl
  rw [hdec, hpadct, hctlen, ← hK, hct]
  rw [restore_decrypt_encrypt P K hPb hKb hks.symm]

/-- Witness for C1 at the fresh deck and the message "a". -/
theorem c1_witness :
    decrypt 10 (List.range' 1 54) (encrypt 10 (List.range' 1 54) ['a'])
      = separate (restore (pad (textbyte ['a']) PAD_CHAR GROUP_SIZE)) ' ' GROUP_SIZE :=
  c1_decrypt_left_inverse 10 (List.range' 1 54) ['a'] (List.Perm.refl _) (by decide)

end Solitaire
